import Mathlib

/-!
Verification of the triangular peg-solitaire solver (`Peg_Solitare.py`).

The program is shallowly embedded: positions are `Int` (Python integers),
a board holds a list of holes, and the depth-first search is modelled with
an explicit fuel parameter; fuel-independence is proved below, which is
the termination statement.
-/

namespace PegSolitaire

/-- Total number of holes of a triangular board of side `n`,
computed as in the source: `(n**2 + n) // 2`. -/
def tri (n : Nat) : Nat := (n ^ 2 + n) / 2

/-- One peg slot: its linear position, whether a peg is present, and the
precomputed candidate jumps `(mid, dest)` (from `Hole.__init__`). -/
structure Hole where
  pos : Int
  has_peg : Bool
  moves : List (Int × Int)
deriving DecidableEq, Repr

/-- `Hole.__init__(n, pos, row, offset)`: the three geometric guards each
contribute two candidate `(mid, dest)` pairs, in source order
(east, northeast, west, northwest, south-west, south-east). -/
def Hole.init (n : Nat) (pos row offset : Nat) : Hole :=
  let p : Int := pos
  let r : Int := row
  let eastMoves : List (Int × Int) :=
    if (offset : Int) - r < -1 then [(p + 1, p + 2), (p - r, p - 2 * r + 1)] else []
  let westMoves : List (Int × Int) :=
    if (offset : Int) > 1 then [(p - 1, p - 2), (p - r - 1, p - 2 * r - 1)] else []
  let southMoves : List (Int × Int) :=
    if (n : Int) - r > 2 then
      [(p + r + 1, p + 2 * (r + 1) + 1), (p + r + 2, p + 2 * (r + 1) + 3)] else []
  { pos := p, has_peg := true, moves := eastMoves ++ westMoves ++ southMoves }

/-- One full game state (`Board`). `winSize` is an integer because for
`n = 1` the source computes `numHoles - 2 = -1`. -/
structure Board where
  size : Nat
  numHoles : Nat
  winSize : Int
  holes : List Hole
  route : List (Int × Int)
deriving DecidableEq, Repr

/-- The `(row, offset)` pairs visited by the nested construction loops of
`Board.__init__`, in order. -/
def rowOffsets (n : Nat) : List (Nat × Nat) :=
  (List.range n).flatMap (fun row => (List.range (row + 1)).map (fun offset => (row, offset)))

/-- `Board.__init__(n)`: the running counter `pos` of the source equals
the index at which the hole is appended, so the holes list is the
enumeration of `rowOffsets` with its index. -/
def Board.init (n : Nat) : Board :=
  { size := n
    numHoles := tri n
    winSize := (tri n : Int) - 2
    holes := (rowOffsets n).enum.map (fun e => Hole.init n e.1 e.2.1 e.2.2)
    route := [] }

def defaultHole : Hole := { pos := 0, has_peg := false, moves := [] }

/-- `b.holes[i]` for an integer index.  All indices the program actually
uses are proved nonnegative and in range below, so the out-of-range
default is never reached on program states. -/
def Board.holeAt (b : Board) (i : Int) : Hole := (b.holes[i.toNat]?).getD defaultHole

/-- `Board.valid_moves`: for every hole with a peg, in list order, emit
`[hole.pos, mid, dest]` for every candidate with a peg at `mid` and no
peg at `dest`. -/
def Board.valid_moves (b : Board) : List (Int × Int × Int) :=
  b.holes.flatMap (fun hole =>
    if hole.has_peg then
      hole.moves.filterMap (fun md =>
        if (b.holeAt md.1).has_peg && !(b.holeAt md.2).has_peg then
          some (hole.pos, md.1, md.2)
        else none)
    else [])

/-- Write `has_peg := v` at integer index `i` (no-op out of range; the
program only uses in-range indices, see the bounds theorems). -/
def setPegAt (hs : List Hole) (i : Int) (v : Bool) : List Hole :=
  match hs[i.toNat]? with
  | some h => hs.set i.toNat { h with has_peg := v }
  | none => hs

/-- Lines 79–83 of `find_solutions`: append `[origin, dest]` to the
route, then clear `origin` and `mid` and fill `dest`. -/
def applyMove (b : Board) (m : Int × Int × Int) : Board :=
  { b with
    route := b.route ++ [(m.1, m.2.2)]
    holes := setPegAt (setPegAt (setPegAt b.holes m.1 false) m.2.1 false) m.2.2 true }

/-- The win test of line 85: `len(new_board.route) == new_board.winSize`. -/
def isWin (b : Board) : Prop := ((b.route.length : Nat) : Int) = b.winSize

instance (b : Board) : Decidable (isWin b) :=
  inferInstanceAs (Decidable (_ = _))

/-- The per-node loop of `find_solutions` (lines 76–92): on a win the
route is reported and the function returns, skipping the remaining
sibling moves; otherwise it recurses via `recur`. -/
def runMoves (recur : Board → List (List (Int × Int))) (b : Board) :
    List (Int × Int × Int) → List (List (Int × Int))
  | [] => []
  | m :: rest =>
    let nb := applyMove b m
    if ((nb.route.length : Nat) : Int) = nb.winSize then [nb.route]
    else recur nb ++ runMoves recur b rest

/-- `find_solutions`, with fuel; returns the reported routes in report
order.  Fuel-independence (termination) is proved below. -/
def find_solutions : Nat → Board → List (List (Int × Int))
  | 0, _ => []
  | f + 1, b => runMoves (find_solutions f) b b.valid_moves

/-- Modelled from the spec (§4.3 step 3): identical loop except that the
remaining sibling moves are still processed after a win is reported. -/
def runMovesAll (recur : Board → List (List (Int × Int))) (b : Board) :
    List (Int × Int × Int) → List (List (Int × Int))
  | [] => []
  | m :: rest =>
    let nb := applyMove b m
    (if ((nb.route.length : Nat) : Int) = nb.winSize then [nb.route] else recur nb)
      ++ runMovesAll recur b rest

/-- Modelled from the spec (§4.3): the search that processes every
candidate move at every node. -/
def searchSpec : Nat → Board → List (List (Int × Int))
  | 0, _ => []
  | f + 1, b => runMovesAll (searchSpec f) b b.valid_moves

/-- Number of pegs on the board. -/
def pegCount (b : Board) : Nat := b.holes.countP (·.has_peg)

/-- Python list indexing: a negative index counts from the end; an index
outside `[-len, len)` raises `IndexError`. -/
def pyListIndex (len : Nat) (i : Int) : Option Nat :=
  let j := if i < 0 then i + len else i
  if 0 ≤ j ∧ j < (len : Int) then some j.toNat else none

/-- The driver's `board.holes[p].has_peg = False`, with Python list-index
semantics: `none` models the raised `IndexError`. -/
def emptyAt (b : Board) (p : Int) : Option Board :=
  match pyListIndex b.holes.length p with
  | some j =>
      some { b with holes := b.holes.set j { (b.holes[j]?).getD defaultHole with has_peg := false } }
  | none => none

/-- The spec's `createBoard`: construct `Board(n)` and empty each given
position the way the driver does (`holes[p].has_peg = False`). -/
def createBoard (n : Nat) (ps : List Int) : Option Board :=
  ps.foldl (fun ob p => ob.bind (fun b => emptyAt b p)) (some (Board.init n))

/-- `Board(n)` with the single peg at (valid) position `v` removed: the
standard initial configuration. -/
def vacBoard (n : Nat) (v : Nat) : Board :=
  let b := Board.init n
  { b with holes := setPegAt b.holes v false }

/-- Structural well-formedness of a board state, true of every board the
program constructs and preserved by every move: the holes list has
`numHoles` entries, each hole records its own index as `pos`, and every
stored candidate pair is in range and has its mid distinct from its
origin. -/
def WF (b : Board) : Prop :=
  b.holes.length = b.numHoles ∧
  (∀ i : Fin b.holes.length, (b.holes.get i).pos = ((i : Nat) : Int)) ∧
  (∀ i : Fin b.holes.length, ∀ md ∈ (b.holes.get i).moves,
    0 ≤ md.1 ∧ md.1 < (b.numHoles : Int) ∧ 0 ≤ md.2 ∧ md.2 < (b.numHoles : Int) ∧
      md.1 ≠ ((i : Nat) : Int))

/-- `ReachN b0 j b`: `b` is obtained from `b0` by applying `j` legal
jumps (each taken from `valid_moves`, exactly as the search applies
them). -/
inductive ReachN (b0 : Board) : Nat → Board → Prop where
  | refl : ReachN b0 0 b0
  | step {j : Nat} {b : Board} {m : Int × Int × Int} :
      ReachN b0 j b → m ∈ b.valid_moves → ReachN b0 (j + 1) (applyMove b m)

/-- `Visited b0 s`: the recursion of `find_solutions`, started on `b0`,
is invoked on `s`.  The loop of lines 76–92 reaches the move `m` only if
no earlier sibling produced a win (the win branch returns), and recurses
into `applyMove s m` only if that child is itself not a win. -/
inductive Visited (b0 : Board) : Board → Prop where
  | refl : Visited b0 b0
  | step {s : Board} (pre post : List (Int × Int × Int)) (m : Int × Int × Int) :
      Visited b0 s →
      s.valid_moves = pre ++ m :: post →
      (∀ m' ∈ pre, ¬ isWin (applyMove s m')) →
      ¬ isWin (applyMove s m) →
      Visited b0 (applyMove s m)

/-- Modelled from the spec (§4.2, candidate moves): the three independent
geometric eligibility tests, each contributing its stated two candidate
pairs. -/
def specCandidates (n pos row offset : Nat) : List (Int × Int) :=
  (if (offset : Int) - (row : Int) < -1 then
    [((pos : Int) + 1, (pos : Int) + 2),
     ((pos : Int) - (row : Int), (pos : Int) - 2 * (row : Int) + 1)]
   else []) ++
  (if (offset : Int) > 1 then
    [((pos : Int) - 1, (pos : Int) - 2),
     ((pos : Int) - (row : Int) - 1, (pos : Int) - 2 * (row : Int) - 1)]
   else []) ++
  (if (n : Int) - (row : Int) > 2 then
    [((pos : Int) + (row : Int) + 1, (pos : Int) + 2 * ((row : Int) + 1) + 1),
     ((pos : Int) + (row : Int) + 2, (pos : Int) + 2 * ((row : Int) + 1) + 3)]
   else [])

/-- Modelled from the spec (§4.2 `validMoves`): iterate the positions
`0, …, numHoles-1` in ascending order; for every position whose hole has
a peg, emit `(position, mid, dest)` for each stored candidate `(mid,
dest)` with a peg at `mid` and none at `dest`, in the stored order. -/
def specValidMoves (b : Board) : List (Int × Int × Int) :=
  (List.range b.numHoles).flatMap (fun p =>
    if (b.holeAt p).has_peg then
      (b.holeAt p).moves.filterMap (fun md =>
        if (b.holeAt md.1).has_peg && !(b.holeAt md.2).has_peg then
          some ((p : Int), md.1, md.2)
        else none)
    else [])

/-! ### Arithmetic of triangular numbers -/

theorem tri_succ (n : Nat) : tri (n + 1) = tri n + (n + 1) := by
  unfold tri
  have h : (n + 1) ^ 2 + (n + 1) = (n ^ 2 + n) + (n + 1) * 2 := by ring
  rw [h, Nat.add_mul_div_right _ _ (by norm_num)]

theorem tri_mono {a b : Nat} (h : a ≤ b) : tri a ≤ tri b := by
  induction b with
  | zero =>
    have ha : a = 0 := by omega
    subst ha; exact le_rfl
  | succ m ih =>
    show tri a ≤ tri (m + 1)
    rcases Nat.lt_or_ge a (m + 1) with h1 | h1
    · have h2 := ih (by omega)
      have h3 := tri_succ m
      omega
    · have ha : a = m + 1 := by omega
      subst ha; exact le_rfl

theorem le_tri (n : Nat) : n ≤ tri n := by
  induction n with
  | zero => exact Nat.zero_le _
  | succ m ih =>
    show m + 1 ≤ tri (m + 1)
    have := tri_succ m; omega

theorem two_mul_le_tri {r : Nat} (h : 2 ≤ r) : 2 * r ≤ tri r + 1 := by
  induction r with
  | zero => omega
  | succ m ih =>
    show 2 * (m + 1) ≤ tri (m + 1) + 1
    rcases Nat.lt_or_ge m 2 with hm | hm
    · interval_cases m
      · decide
      · decide
    · have h1 := ih hm
      have h2 := tri_succ m
      omega

theorem tri_lt {r o n : Nat} (ho : o ≤ r) (hr : r < n) : tri r + o < tri n := by
  have h1 := tri_succ r
  have h2 : tri (r + 1) ≤ tri n := tri_mono hr
  omega

theorem tri_inj {r o r' o' : Nat} (h : o ≤ r) (h' : o' ≤ r')
    (he : tri r + o = tri r' + o') : r = r' ∧ o = o' := by
  rcases Nat.lt_trichotomy r r' with hlt | heq | hgt
  · have h1 := tri_succ r
    have h2 : tri (r + 1) ≤ tri r' := tri_mono hlt
    omega
  · subst heq; omega
  · have h1 := tri_succ r'
    have h2 : tri (r' + 1) ≤ tri r := tri_mono hgt
    omega

theorem tri_surj {n : Nat} : ∀ i : Nat, i < tri n → ∃ r o : Nat, o ≤ r ∧ r < n ∧ tri r + o = i := by
  induction n with
  | zero => intro i hi; simp [tri] at hi
  | succ m ih =>
    intro i hi
    rcases Nat.lt_or_ge i (tri m) with h | h
    · obtain ⟨r, o, h1, h2, h3⟩ := ih i h
      exact ⟨r, o, h1, by omega, h3⟩
    · have hs := tri_succ m
      exact ⟨m, i - tri m, by omega, by omega, by omega⟩

/-! ### Structure of the constructed board -/

theorem rowOffsets_succ (n : Nat) :
    rowOffsets (n + 1) = rowOffsets n ++ (List.range (n + 1)).map (fun o => (n, o)) := by
  simp [rowOffsets, List.range_succ]

theorem length_rowOffsets (n : Nat) : (rowOffsets n).length = tri n := by
  induction n with
  | zero => rfl
  | succ m ih =>
    rw [rowOffsets_succ, List.length_append, ih, List.length_map, List.length_range, tri_succ]

theorem rowOffsets_getElem? {n r o : Nat} (ho : o ≤ r) (hr : r < n) :
    (rowOffsets n)[tri r + o]? = some (r, o) := by
  induction n with
  | zero => omega
  | succ m ih =>
    rw [rowOffsets_succ]
    rcases Nat.lt_or_ge r m with h1 | h1
    · rw [List.getElem?_append_left (by rw [length_rowOffsets]; exact tri_lt ho h1)]
      exact ih h1
    · have hrm : r = m := by omega
      subst hrm
      rw [List.getElem?_append_right (by rw [length_rowOffsets]; omega)]
      rw [length_rowOffsets]
      have he : tri r + o - tri r = o := by omega
      rw [he, List.getElem?_map, List.getElem?_range (by omega)]
      rfl

theorem init_holes_length (n : Nat) : (Board.init n).holes.length = tri n := by
  simp [Board.init, length_rowOffsets]

theorem init_holes_getElem? (n i : Nat) :
    (Board.init n).holes[i]? =
      ((rowOffsets n)[i]?).map (fun ro => Hole.init n i ro.1 ro.2) := by
  simp only [Board.init, List.getElem?_map, List.getElem?_enum]
  cases h : (rowOffsets n)[i]? <;> simp

theorem init_getElem?_eq {n r o : Nat} (ho : o ≤ r) (hr : r < n) :
    (Board.init n).holes[tri r + o]? = some (Hole.init n (tri r + o) r o) := by
  rw [init_holes_getElem?, rowOffsets_getElem? ho hr]
  rfl

theorem init_get_pos (n : Nat) (i : Fin (Board.init n).holes.length) :
    ((Board.init n).holes.get i).pos = ((i : Nat) : Int) := by
  have hlen := init_holes_length n
  have hi : (i : Nat) < tri n := by have := i.isLt; omega
  obtain ⟨r, o, ho, hr, hro⟩ := tri_surj (i : Nat) hi
  have h := init_getElem?_eq ho hr
  rw [hro] at h
  rw [List.getElem?_eq_getElem i.isLt] at h
  have h3 := Option.some.inj h
  rw [List.get_eq_getElem, h3]
  rfl

/-! ### Geometry: every stored candidate index is in range -/

theorem hole_init_moves_bounds {n r o : Nat} (ho : o ≤ r) (hr : r < n) :
    ∀ md ∈ (Hole.init n (tri r + o) r o).moves,
      0 ≤ md.1 ∧ md.1 < ((tri n : Nat) : Int) ∧ 0 ≤ md.2 ∧ md.2 < ((tri n : Nat) : Int) ∧
        md.1 ≠ (((tri r + o : Nat)) : Int) := by
  intro md hmd
  have hts : tri (r + 1) = tri r + (r + 1) := tri_succ r
  have hm1 : tri (r + 1) ≤ tri n := tri_mono hr
  have hlt := le_tri r
  simp only [Hole.init, List.mem_append] at hmd
  rcases hmd with (h | h) | h
  · by_cases hc : (o : Int) - (r : Int) < -1
    · rw [if_pos hc] at h
      have hr2 : 2 ≤ r := by omega
      have h2m := two_mul_le_tri hr2
      simp only [List.mem_cons, List.not_mem_nil, or_false] at h
      rcases h with rfl | rfl <;> dsimp only <;> omega
    · rw [if_neg hc] at h
      exact absurd h (List.not_mem_nil md)
  · by_cases hc : (o : Int) > 1
    · rw [if_pos hc] at h
      have hr2 : 2 ≤ r := by omega
      have h2m := two_mul_le_tri hr2
      simp only [List.mem_cons, List.not_mem_nil, or_false] at h
      rcases h with rfl | rfl <;> dsimp only <;> omega
    · rw [if_neg hc] at h
      exact absurd h (List.not_mem_nil md)
  · by_cases hc : (n : Int) - (r : Int) > 2
    · rw [if_pos hc] at h
      have hts2 : tri (r + 2) = tri (r + 1) + (r + 2) := tri_succ (r + 1)
      have hts3 : tri (r + 3) = tri (r + 2) + (r + 3) := tri_succ (r + 2)
      have hm3 : tri (r + 3) ≤ tri n := tri_mono (by omega)
      simp only [List.mem_cons, List.not_mem_nil, or_false] at h
      rcases h with rfl | rfl <;> dsimp only <;> omega
    · rw [if_neg hc] at h
      exact absurd h (List.not_mem_nil md)

theorem WF_init (n : Nat) : WF (Board.init n) := by
  refine ⟨init_holes_length n, init_get_pos n, ?_⟩
  intro i md hmd
  have hlen := init_holes_length n
  have hi : (i : Nat) < tri n := by have := i.isLt; omega
  obtain ⟨r, o, ho, hr, hro⟩ := tri_surj (i : Nat) hi
  have h := init_getElem?_eq ho hr
  rw [hro, List.getElem?_eq_getElem i.isLt] at h
  have h3 := Option.some.inj h
  rw [List.get_eq_getElem, h3, ← hro] at hmd
  have hb := hole_init_moves_bounds ho hr md hmd
  have hnum : (Board.init n).numHoles = tri n := rfl
  rw [hnum]
  omega

/-! ### `setPegAt` and `applyMove` -/

theorem length_setPegAt (hs : List Hole) (i : Int) (v : Bool) :
    (setPegAt hs i v).length = hs.length := by
  unfold setPegAt
  split
  · exact List.length_set ..
  · rfl

theorem getElem?_setPegAt_ne (hs : List Hole) (i : Int) (v : Bool) {j : Nat}
    (h : j ≠ i.toNat) : (setPegAt hs i v)[j]? = hs[j]? := by
  unfold setPegAt
  split
  · exact List.getElem?_set_ne (Ne.symm h)
  · rfl

theorem getElem?_setPegAt_self (hs : List Hole) (i : Int) (v : Bool)
    (h : i.toNat < hs.length) :
    (setPegAt hs i v)[i.toNat]? = (hs[i.toNat]?).map (fun h0 => { h0 with has_peg := v }) := by
  unfold setPegAt
  split
  · rename_i a ha
    rw [List.getElem?_set_self h, ha]
    rfl
  · rename_i ha
    rw [List.getElem?_eq_none_iff] at ha
    omega

theorem setPegAt_components (hs : List Hole) (i : Int) (v : Bool) (j : Nat) :
    ((setPegAt hs i v)[j]?).map Hole.pos = (hs[j]?).map Hole.pos ∧
    ((setPegAt hs i v)[j]?).map Hole.moves = (hs[j]?).map Hole.moves := by
  by_cases hj : j = i.toNat
  · subst hj
    by_cases hl : i.toNat < hs.length
    · rw [getElem?_setPegAt_self hs i v hl, List.getElem?_eq_getElem hl]
      exact ⟨rfl, rfl⟩
    · have h1 : hs[i.toNat]? = none := List.getElem?_eq_none (by omega)
      have h2 : (setPegAt hs i v)[i.toNat]? = none :=
        List.getElem?_eq_none (by rw [length_setPegAt]; omega)
      rw [h1, h2]
      exact ⟨rfl, rfl⟩
  · rw [getElem?_setPegAt_ne hs i v hj]
    exact ⟨rfl, rfl⟩

theorem applyMove_route (b : Board) (m : Int × Int × Int) :
    (applyMove b m).route = b.route ++ [(m.1, m.2.2)] := rfl

theorem applyMove_route_length (b : Board) (m : Int × Int × Int) :
    (applyMove b m).route.length = b.route.length + 1 := by
  rw [applyMove_route, List.length_append]
  rfl

theorem applyMove_winSize (b : Board) (m : Int × Int × Int) :
    (applyMove b m).winSize = b.winSize := rfl

theorem applyMove_numHoles (b : Board) (m : Int × Int × Int) :
    (applyMove b m).numHoles = b.numHoles := rfl

theorem length_applyMove (b : Board) (m : Int × Int × Int) :
    (applyMove b m).holes.length = b.holes.length := by
  show (setPegAt (setPegAt (setPegAt b.holes m.1 false) m.2.1 false) m.2.2 true).length
      = b.holes.length
  rw [length_setPegAt, length_setPegAt, length_setPegAt]

theorem applyMove_components (b : Board) (m : Int × Int × Int) (j : Nat) :
    (((applyMove b m).holes[j]?).map Hole.pos = (b.holes[j]?).map Hole.pos) ∧
    (((applyMove b m).holes[j]?).map Hole.moves = (b.holes[j]?).map Hole.moves) := by
  have c1 := setPegAt_components b.holes m.1 false j
  have c2 := setPegAt_components (setPegAt b.holes m.1 false) m.2.1 false j
  have c3 := setPegAt_components (setPegAt (setPegAt b.holes m.1 false) m.2.1 false) m.2.2 true j
  exact ⟨c3.1.trans (c2.1.trans c1.1), c3.2.trans (c2.2.trans c1.2)⟩

/-- Well-formedness only concerns lengths, `pos` and `moves`, none of
which a peg write can change. -/
theorem WF_of_components {b b' : Board}
    (hnum : b'.numHoles = b.numHoles)
    (hlen : b'.holes.length = b.holes.length)
    (hcomp : ∀ j : Nat, ((b'.holes[j]?).map Hole.pos = (b.holes[j]?).map Hole.pos) ∧
       ((b'.holes[j]?).map Hole.moves = (b.holes[j]?).map Hole.moves))
    (hwf : WF b) : WF b' := by
  obtain ⟨h1, h2, h3⟩ := hwf
  refine ⟨by omega, ?_, ?_⟩
  · intro i
    have hiv : (i : Nat) < b.holes.length := by have := i.isLt; omega
    have hc := (hcomp (i : Nat)).1
    rw [List.getElem?_eq_getElem i.isLt, List.getElem?_eq_getElem hiv] at hc
    simp only [Option.map_some'] at hc
    have hp := h2 ⟨(i : Nat), hiv⟩
    rw [List.get_eq_getElem] at hp ⊢
    rw [Option.some.inj hc]
    exact hp
  · intro i md hmd
    have hiv : (i : Nat) < b.holes.length := by have := i.isLt; omega
    have hc := (hcomp (i : Nat)).2
    rw [List.getElem?_eq_getElem i.isLt, List.getElem?_eq_getElem hiv] at hc
    simp only [Option.map_some'] at hc
    rw [List.get_eq_getElem] at hmd
    rw [Option.some.inj hc] at hmd
    have hb := h3 ⟨(i : Nat), hiv⟩ md (by rw [List.get_eq_getElem]; exact hmd)
    rw [hnum]
    exact hb

theorem WF_applyMove {b : Board} (hwf : WF b) (m : Int × Int × Int) :
    WF (applyMove b m) :=
  WF_of_components (applyMove_numHoles b m) (length_applyMove b m)
    (applyMove_components b m) hwf

/-! ### Peg counting -/

theorem countP_set_aux (p : Hole → Bool) :
    ∀ (hs : List Hole) (i : Nat) (a : Hole), i < hs.length →
      (hs.set i a).countP p + (if p ((hs[i]?).getD defaultHole) then 1 else 0) =
        hs.countP p + (if p a then 1 else 0) := by
  intro hs
  induction hs with
  | nil => intro i a h; simp at h
  | cons hd tl ih =>
    intro i a h
    cases i with
    | zero =>
      simp only [List.set_cons_zero, List.countP_cons, List.getElem?_cons_zero,
        Option.getD_some]
      omega
    | succ m =>
      have hm : m < tl.length := by simpa using h
      simp only [List.set_cons_succ, List.countP_cons, List.getElem?_cons_succ]
      have hi := ih m a hm
      omega

theorem holeAt_eq_get {b : Board} {i : Int} (h : i.toNat < b.holes.length) :
    b.holeAt i = b.holes.get ⟨i.toNat, h⟩ := by
  unfold Board.holeAt
  rw [List.getElem?_eq_getElem h, List.get_eq_getElem]
  rfl

theorem countP_setPegAt (hs : List Hole) (i : Int) (v : Bool) (h : i.toNat < hs.length) :
    (setPegAt hs i v).countP (·.has_peg) +
        (if ((hs[i.toNat]?).getD defaultHole).has_peg then 1 else 0) =
      hs.countP (·.has_peg) + (if v then 1 else 0) := by
  unfold setPegAt
  split
  · rename_i a ha
    have haux := countP_set_aux (·.has_peg) hs i.toNat { a with has_peg := v } h
    simpa using haux
  · rename_i ha
    rw [List.getElem?_eq_none_iff] at ha
    omega

theorem WF_vacBoard (n v : Nat) : WF (vacBoard n v) := by
  refine WF_of_components ?_ ?_ ?_ (WF_init n)
  · rfl
  · show (setPegAt (Board.init n).holes (v : Int) false).length = (Board.init n).holes.length
    exact length_setPegAt ..
  · intro j
    exact setPegAt_components ..

/-! ### Facts about enumerated moves -/

theorem mem_valid_moves_facts {b : Board} (hwf : WF b) {mv : Int × Int × Int}
    (h : mv ∈ b.valid_moves) :
    0 ≤ mv.1 ∧ mv.1.toNat < b.holes.length ∧
    0 ≤ mv.2.1 ∧ mv.2.1.toNat < b.holes.length ∧
    0 ≤ mv.2.2 ∧ mv.2.2.toNat < b.holes.length ∧
    mv.1 ≠ mv.2.1 ∧
    (b.holeAt mv.1).has_peg = true ∧ (b.holeAt mv.2.1).has_peg = true ∧
    (b.holeAt mv.2.2).has_peg = false := by
  obtain ⟨hlen, hpos, hmoves⟩ := hwf
  unfold Board.valid_moves at h
  rw [List.mem_flatMap] at h
  obtain ⟨hole, hhole, hmem⟩ := h
  cases hph : hole.has_peg with
  | false => rw [hph] at hmem; simp at hmem
  | true =>
  rw [if_pos hph] at hmem
  rw [List.mem_filterMap] at hmem
  obtain ⟨md, hmd, hcond⟩ := hmem
  by_cases hc : ((b.holeAt md.1).has_peg && !(b.holeAt md.2).has_peg) = true
  case neg => rw [if_neg hc] at hcond; simp at hcond
  rw [if_pos hc] at hcond
  have he := Option.some.inj hcond
  rw [Bool.and_eq_true, Bool.not_eq_true'] at hc
  rw [List.mem_iff_getElem] at hhole
  obtain ⟨idx, hidx, hget⟩ := hhole
  have hposidx : hole.pos = ((idx : Nat) : Int) := by
    have hp := hpos ⟨idx, hidx⟩
    rw [List.get_eq_getElem, hget] at hp
    exact hp
  have hmdb : 0 ≤ md.1 ∧ md.1 < (b.numHoles : Int) ∧ 0 ≤ md.2 ∧
      md.2 < (b.numHoles : Int) ∧ md.1 ≠ ((idx : Nat) : Int) := by
    have hmm := hmoves ⟨idx, hidx⟩ md (by rw [List.get_eq_getElem, hget]; exact hmd)
    exact hmm
  have hoeq : b.holeAt hole.pos = hole := by
    rw [hposidx, holeAt_eq_get (show ((idx : Int)).toNat < b.holes.length from hidx),
      List.get_eq_getElem]
    exact hget
  subst he
  dsimp only
  refine ⟨by omega, by omega, by omega, by omega, by omega, by omega, by omega,
    ?_, hc.1, hc.2⟩
  rw [hoeq]
  exact hph

theorem pegCount_applyMove {b : Board} (hwf : WF b) {mv : Int × Int × Int}
    (h : mv ∈ b.valid_moves) :
    pegCount (applyMove b mv) + 1 = pegCount b := by
  obtain ⟨ho0, ho1, hm0, hm1, hd0, hd1, hom, hpo, hpm, hpd⟩ := mem_valid_moves_facts hwf h
  have homN : mv.2.1.toNat ≠ mv.1.toNat := by omega
  have hdo : mv.2.2.toNat ≠ mv.1.toNat := by
    intro he
    have hAt : b.holeAt mv.2.2 = b.holeAt mv.1 := by unfold Board.holeAt; rw [he]
    rw [hAt, hpo] at hpd
    simp at hpd
  have hdm : mv.2.2.toNat ≠ mv.2.1.toNat := by
    intro he
    have hAt : b.holeAt mv.2.2 = b.holeAt mv.2.1 := by unfold Board.holeAt; rw [he]
    rw [hAt, hpm] at hpd
    simp at hpd
  have hpo' : ((b.holes[mv.1.toNat]?).getD defaultHole).has_peg = true := hpo
  have hpm' : ((b.holes[mv.2.1.toNat]?).getD defaultHole).has_peg = true := hpm
  have hpd' : ((b.holes[mv.2.2.toNat]?).getD defaultHole).has_peg = false := hpd
  have e1 := countP_setPegAt b.holes mv.1 false ho1
  rw [hpo'] at e1
  simp at e1
  have len1 : (setPegAt b.holes mv.1 false).length = b.holes.length := length_setPegAt ..
  have hv2 : (setPegAt b.holes mv.1 false)[mv.2.1.toNat]? = b.holes[mv.2.1.toNat]? :=
    getElem?_setPegAt_ne _ _ _ homN
  have e2 := countP_setPegAt (setPegAt b.holes mv.1 false) mv.2.1 false (by omega)
  rw [hv2, hpm'] at e2
  simp at e2
  have len2 : (setPegAt (setPegAt b.holes mv.1 false) mv.2.1 false).length = b.holes.length := by
    rw [length_setPegAt, length_setPegAt]
  have hv3 : (setPegAt (setPegAt b.holes mv.1 false) mv.2.1 false)[mv.2.2.toNat]?
      = b.holes[mv.2.2.toNat]? := by
    rw [getElem?_setPegAt_ne _ _ _ hdm, getElem?_setPegAt_ne _ _ _ hdo]
  have e3 := countP_setPegAt (setPegAt (setPegAt b.holes mv.1 false) mv.2.1 false)
    mv.2.2 true (by omega)
  rw [hv3, hpd'] at e3
  simp at e3
  have hfin : pegCount (applyMove b mv) =
      (setPegAt (setPegAt (setPegAt b.holes mv.1 false) mv.2.1 false) mv.2.2 true).countP
        (·.has_peg) := rfl
  have hb : pegCount b = b.holes.countP (·.has_peg) := rfl
  omega

theorem valid_moves_pegCount_pos {b : Board} {mv : Int × Int × Int}
    (h : mv ∈ b.valid_moves) : 0 < pegCount b := by
  unfold Board.valid_moves at h
  rw [List.mem_flatMap] at h
  obtain ⟨hole, hhole, hmem⟩ := h
  cases hph : hole.has_peg with
  | false => rw [hph] at hmem; simp at hmem
  | true =>
    unfold pegCount
    rw [List.countP_pos_iff]
    exact ⟨hole, hhole, hph⟩

theorem valid_moves_eq_nil {b : Board} (h : pegCount b = 0) : b.valid_moves = [] := by
  rcases hv : b.valid_moves with _ | ⟨m, rest⟩
  · rfl
  · have hm : m ∈ b.valid_moves := by rw [hv]; exact List.mem_cons_self ..
    have := valid_moves_pegCount_pos hm
    omega

/-! ### Termination: the search result does not depend on the fuel -/

theorem find_solutions_of_no_moves {b : Board} (h : b.valid_moves = []) :
    ∀ f, find_solutions f b = [] := by
  intro f
  cases f with
  | zero => rfl
  | succ f2 =>
    show runMoves (find_solutions f2) b b.valid_moves = []
    rw [h]
    rfl

theorem find_solutions_stable_aux :
    ∀ (k : Nat) (b : Board), WF b → pegCount b ≤ k →
      ∀ f g, pegCount b ≤ f → pegCount b ≤ g →
        find_solutions f b = find_solutions g b := by
  intro k
  induction k with
  | zero =>
    intro b _ hk f g _ _
    have hnil := valid_moves_eq_nil (b := b) (by omega)
    rw [find_solutions_of_no_moves hnil f, find_solutions_of_no_moves hnil g]
  | succ k ih =>
    intro b hwf hk f g hf hg
    rcases Nat.eq_zero_or_pos (pegCount b) with hz | hpos
    · have hnil := valid_moves_eq_nil hz
      rw [find_solutions_of_no_moves hnil f, find_solutions_of_no_moves hnil g]
    · cases f with
      | zero => omega
      | succ f2 =>
        cases g with
        | zero => omega
        | succ g2 =>
          show runMoves (find_solutions f2) b b.valid_moves
              = runMoves (find_solutions g2) b b.valid_moves
          have inner : ∀ ms : List (Int × Int × Int), (∀ m ∈ ms, m ∈ b.valid_moves) →
              runMoves (find_solutions f2) b ms = runMoves (find_solutions g2) b ms := by
            intro ms
            induction ms with
            | nil => intro _; rfl
            | cons m rest ihm =>
              intro hsub
              have hmem := hsub m (List.mem_cons_self ..)
              have hrest : ∀ m' ∈ rest, m' ∈ b.valid_moves :=
                fun m' hm' => hsub m' (List.mem_cons_of_mem _ hm')
              simp only [runMoves]
              by_cases hwin :
                  (((applyMove b m).route.length : Nat) : Int) = (applyMove b m).winSize
              · rw [if_pos hwin, if_pos hwin]
              · rw [if_neg hwin, if_neg hwin]
                have hpc := pegCount_applyMove hwf hmem
                have hrec : find_solutions f2 (applyMove b m) =
                    find_solutions g2 (applyMove b m) := by
                  apply ih
                  · exact WF_applyMove hwf m
                  · omega
                  · omega
                  · omega
                rw [hrec, ihm hrest]
          exact inner b.valid_moves (fun m hm => hm)

/-! ### Reachability invariants -/

theorem pegCount_init (n : Nat) : pegCount (Board.init n) = tri n := by
  unfold pegCount
  rw [← init_holes_length n, List.countP_eq_length]
  intro a ha
  rw [List.mem_iff_getElem] at ha
  obtain ⟨i, hi, hget⟩ := ha
  have h := init_holes_getElem? n i
  rw [List.getElem?_eq_getElem hi] at h
  cases hro : (rowOffsets n)[i]? with
  | none => rw [hro] at h; simp at h
  | some ro =>
    rw [hro] at h
    have h2 := Option.some.inj h
    rw [← hget, h2]
    rfl

theorem init_getElem?_getD_has_peg {n i : Nat} (hi : i < tri n) :
    (((Board.init n).holes[i]?).getD defaultHole).has_peg = true := by
  have hlen := init_holes_length n
  have h := init_holes_getElem? n i
  rw [List.getElem?_eq_getElem (by omega)] at h
  cases hro : (rowOffsets n)[i]? with
  | none =>
    have : (rowOffsets n).length ≤ i := by rw [← List.getElem?_eq_none_iff]; exact hro
    rw [length_rowOffsets] at this
    omega
  | some ro =>
    rw [hro] at h
    rw [List.getElem?_eq_getElem (by omega), Option.getD_some, Option.some.inj h]
    rfl

theorem pegCount_vacBoard {n v : Nat} (hv : v < tri n) :
    pegCount (vacBoard n v) + 1 = tri n := by
  have hlen := init_holes_length n
  have e := countP_setPegAt (Board.init n).holes (v : Nat) false
    (show ((v : Nat) : Int).toNat < (Board.init n).holes.length by
      rw [hlen]; exact_mod_cast hv)
  rw [show (((v : Nat) : Int)).toNat = v from rfl] at e
  rw [init_getElem?_getD_has_peg hv] at e
  simp at e
  have hfin : pegCount (vacBoard n v) =
      (setPegAt (Board.init n).holes (v : Nat) false).countP (·.has_peg) := rfl
  have hini := pegCount_init n
  unfold pegCount at hini
  omega

theorem reach_invariant {b0 : Board} (hwf : WF b0) :
    ∀ {j : Nat} {b : Board}, ReachN b0 j b →
      WF b ∧ b.route.length = b0.route.length + j ∧ pegCount b + j = pegCount b0 ∧
        b.winSize = b0.winSize := by
  intro j b h
  induction h with
  | refl => exact ⟨hwf, by omega, by omega, rfl⟩
  | @step j1 b1 m1 hr hm ih =>
    obtain ⟨ih1, ih2, ih3, ih4⟩ := ih
    refine ⟨WF_applyMove ih1 _, ?_, ?_, ?_⟩
    · rw [applyMove_route_length]; omega
    · have := pegCount_applyMove ih1 hm; omega
    · rw [applyMove_winSize]; exact ih4

/-! ### The enumerator agrees with its positional specification -/

theorem flatMap_congr_mem {α β : Type _} {l : List α} {f g : α → List β}
    (h : ∀ a ∈ l, f a = g a) : l.flatMap f = l.flatMap g := by
  induction l with
  | nil => rfl
  | cons x xs ih =>
    simp only [List.flatMap_cons]
    rw [h x (List.mem_cons_self ..), ih (fun a ha => h a (List.mem_cons_of_mem _ ha))]

theorem self_eq_range_map (l : List Hole) :
    l = (List.range l.length).map (fun i => (l[i]?).getD defaultHole) := by
  apply List.ext_getElem
  · simp
  · intro i h1 h2
    rw [List.getElem_map, List.getElem_range, List.getElem?_eq_getElem h1, Option.getD_some]

theorem valid_moves_eq_spec {b : Board} (hwf : WF b) : b.valid_moves = specValidMoves b := by
  obtain ⟨hlen, hpos, _⟩ := hwf
  unfold Board.valid_moves specValidMoves
  rw [← hlen]
  conv_lhs => rw [self_eq_range_map b.holes]
  rw [List.flatMap_map]
  apply flatMap_congr_mem
  intro p hp
  rw [List.mem_range] at hp
  have hp2 : ((b.holes[p]?).getD defaultHole).pos = (p : Int) := by
    have hq := hpos ⟨p, hp⟩
    rw [List.get_eq_getElem] at hq
    rw [List.getElem?_eq_getElem hp, Option.getD_some]
    exact hq
  rw [hp2]
  rfl

theorem mem_valid_moves_iff {b : Board} (hwf : WF b) (o m1 d : Int) :
    (o, m1, d) ∈ b.valid_moves ↔
      ∃ p : Nat, p < b.numHoles ∧ o = (p : Int) ∧ (b.holeAt (p : Int)).has_peg = true ∧
        (m1, d) ∈ (b.holeAt (p : Int)).moves ∧
        (b.holeAt m1).has_peg = true ∧ (b.holeAt d).has_peg = false := by
  rw [valid_moves_eq_spec hwf]
  unfold specValidMoves
  rw [List.mem_flatMap]
  constructor
  · rintro ⟨p, hp, hmem⟩
    rw [List.mem_range] at hp
    by_cases hpeg : (b.holeAt (p : Int)).has_peg = true
    case neg => rw [if_neg hpeg] at hmem; simp at hmem
    rw [if_pos hpeg] at hmem
    rw [List.mem_filterMap] at hmem
    obtain ⟨md, hmd, hcond⟩ := hmem
    by_cases hc : ((b.holeAt md.1).has_peg && !(b.holeAt md.2).has_peg) = true
    case neg => rw [if_neg hc] at hcond; simp at hcond
    rw [if_pos hc] at hcond
    have he := Option.some.inj hcond
    rw [Bool.and_eq_true, Bool.not_eq_true'] at hc
    have he1 : (p : Int) = o := congrArg Prod.fst he
    have he2 : md.1 = m1 := congrArg (fun q => q.2.1) he
    have he3 : md.2 = d := congrArg (fun q => q.2.2) he
    refine ⟨p, hp, he1.symm, hpeg, ?_, ?_, ?_⟩
    · rw [← he2, ← he3]
      exact hmd
    · rw [← he2]; exact hc.1
    · rw [← he3]; exact hc.2
  · rintro ⟨p, hp, rfl, hpeg, hmd, hcm, hcd⟩
    refine ⟨p, List.mem_range.mpr hp, ?_⟩
    rw [if_pos hpeg, List.mem_filterMap]
    refine ⟨(m1, d), hmd, ?_⟩
    rw [if_pos (show ((b.holeAt (m1, d).1).has_peg && !(b.holeAt (m1, d).2).has_peg) = true by
      rw [Bool.and_eq_true, Bool.not_eq_true']
      exact ⟨hcm, hcd⟩)]

/-! ### Construction-time rejection of out-of-range positions -/

theorem pyListIndex_eq_none_iff (len : Nat) (i : Int) :
    pyListIndex len i = none ↔ (i < -(len : Int) ∨ (len : Int) ≤ i) := by
  simp only [pyListIndex]
  by_cases h1 : i < 0
  · rw [if_pos h1]
    by_cases h2 : 0 ≤ i + (len : Int) ∧ i + (len : Int) < (len : Int)
    · rw [if_pos h2]
      simp only [reduceCtorEq, false_iff]
      omega
    · rw [if_neg h2]
      simp only [true_iff]
      omega
  · rw [if_neg h1]
    by_cases h2 : 0 ≤ i ∧ i < (len : Int)
    · rw [if_pos h2]
      simp only [reduceCtorEq, false_iff]
      omega
    · rw [if_neg h2]
      simp only [true_iff]
      omega

theorem emptyAt_eq_none_iff (b : Board) (p : Int) :
    emptyAt b p = none ↔ (p < -(b.holes.length : Int) ∨ (b.holes.length : Int) ≤ p) := by
  constructor
  · intro hn
    rcases hpl : pyListIndex b.holes.length p with _ | j
    · exact (pyListIndex_eq_none_iff _ _).mp hpl
    · unfold emptyAt at hn
      rw [hpl] at hn
      simp at hn
  · intro hr
    have hpl := (pyListIndex_eq_none_iff b.holes.length p).mpr hr
    unfold emptyAt
    rw [hpl]

theorem emptyAt_some_length {b b' : Board} {p : Int} (h : emptyAt b p = some b') :
    b'.holes.length = b.holes.length := by
  unfold emptyAt at h
  cases hpl : pyListIndex b.holes.length p with
  | none => rw [hpl] at h; simp at h
  | some j =>
    rw [hpl] at h
    have hb := Option.some.inj h
    rw [← hb]
    exact List.length_set ..

theorem foldl_emptyAt_none (ps : List Int) :
    ps.foldl (fun ob p => ob.bind (fun b => emptyAt b p)) none = none := by
  induction ps with
  | nil => rfl
  | cons p ps ih => exact ih

theorem createBoard_go_none_iff :
    ∀ (ps : List Int) (b : Board),
      (ps.foldl (fun ob p => ob.bind (fun bb => emptyAt bb p)) (some b) = none) ↔
        ∃ p ∈ ps, (p < -(b.holes.length : Int) ∨ (b.holes.length : Int) ≤ p) := by
  intro ps
  induction ps with
  | nil => intro b; simp
  | cons p ps ih =>
    intro b
    show (List.foldl _ ((some b).bind (fun bb => emptyAt bb p)) ps = none) ↔ _
    have hstep : (some b).bind (fun bb => emptyAt bb p) = emptyAt b p := rfl
    rw [hstep]
    cases he : emptyAt b p with
    | none =>
      rw [foldl_emptyAt_none]
      constructor
      · intro _
        exact ⟨p, List.mem_cons_self .., (emptyAt_eq_none_iff b p).mp he⟩
      · intro _; rfl
    | some b' =>
      rw [ih b', emptyAt_some_length he]
      have hnotp : ¬(p < -(b.holes.length : Int) ∨ (b.holes.length : Int) ≤ p) := by
        intro hr
        rw [(emptyAt_eq_none_iff b p).mpr hr] at he
        simp at he
      constructor
      · rintro ⟨q, hq, hqr⟩
        exact ⟨q, List.mem_cons_of_mem _ hq, hqr⟩
      · rintro ⟨q, hq, hqr⟩
        rcases List.mem_cons.mp hq with rfl | hq2
        · exact absurd hqr hnotp
        · exact ⟨q, hq2, hqr⟩

instance (b : Board) : Decidable (WF b) := by
  unfold WF
  infer_instance

/-! ### Claim theorems -/

/-- C2: starting from a board of size `n` with exactly one peg removed
(at any valid position `v`), every state reached by `j` legal jumps has
`route.length = j`, its `winSize` is `numHoles - 2`, and if the route
length has reached `winSize` then exactly one peg remains. -/
theorem route_length_invariant :
    ∀ (n v : Nat), v < tri n → ∀ (j : Nat) (b : Board), ReachN (vacBoard n v) j b →
      b.route.length = j ∧ b.winSize = ((tri n : Nat) : Int) - 2 ∧
        (((b.route.length : Nat) : Int) = b.winSize → pegCount b = 1) := by
  intro n v hv j b hreach
  have hwf := WF_vacBoard n v
  obtain ⟨_, hroute, hpegs, hwin⟩ := reach_invariant hwf hreach
  have hr0 : (vacBoard n v).route.length = 0 := rfl
  have hpc := pegCount_vacBoard hv
  have hws : (vacBoard n v).winSize = ((tri n : Nat) : Int) - 2 := rfl
  refine ⟨by omega, by rw [hwin]; exact hws, ?_⟩
  intro hlen
  rw [hwin, hws] at hlen
  omega

def c2w0 : Board := vacBoard 4 1
def c2w1 : Board := applyMove c2w0 (6, 3, 1)
def c2w2 : Board := applyMove c2w1 (0, 1, 3)
def c2w3 : Board := applyMove c2w2 (5, 2, 0)
def c2w4 : Board := applyMove c2w3 (3, 4, 5)
def c2w5 : Board := applyMove c2w4 (9, 5, 2)
def c2w6 : Board := applyMove c2w5 (0, 2, 5)
def c2w7 : Board := applyMove c2w6 (7, 8, 9)
def c2w8 : Board := applyMove c2w7 (9, 5, 2)

theorem route_length_invariant_witness :
    c2w8.route.length = 8 ∧ c2w8.winSize = ((tri 4 : Nat) : Int) - 2 ∧
      (((c2w8.route.length : Nat) : Int) = c2w8.winSize → pegCount c2w8 = 1) := by
  have hreach : ReachN (vacBoard 4 1) 8 c2w8 :=
    ReachN.step (ReachN.step (ReachN.step (ReachN.step (ReachN.step (ReachN.step
      (ReachN.step (ReachN.step ReachN.refl (by decide)) (by decide)) (by decide))
      (by decide)) (by decide)) (by decide)) (by decide)) (by decide)
  exact route_length_invariant 4 1 (by decide) 8 c2w8 hreach

/-- C3: on every well-formed board the move enumerator returns exactly
the triples `(origin, mid, dest)` with a peg at the origin hole, `(mid,
dest)` one of its stored candidates, a peg at `mid` and none at `dest`;
and the returned list equals the positional enumeration (positions in
ascending order, candidates in stored generation order). -/
theorem valid_moves_characterization :
    ∀ b : Board, WF b →
      b.valid_moves = specValidMoves b ∧
      (∀ o m1 d : Int, (o, m1, d) ∈ b.valid_moves ↔
        ∃ p : Nat, p < b.numHoles ∧ o = (p : Int) ∧ (b.holeAt (p : Int)).has_peg = true ∧
          (m1, d) ∈ (b.holeAt (p : Int)).moves ∧
          (b.holeAt m1).has_peg = true ∧ (b.holeAt d).has_peg = false) :=
  fun _ hwf => ⟨valid_moves_eq_spec hwf, fun o m1 d => mem_valid_moves_iff hwf o m1 d⟩

theorem valid_moves_characterization_witness :
    (vacBoard 3 0).valid_moves = specValidMoves (vacBoard 3 0) ∧
    ((3, 1, 0) ∈ (vacBoard 3 0).valid_moves ↔
      ∃ p : Nat, p < (vacBoard 3 0).numHoles ∧ (3 : Int) = (p : Int) ∧
        ((vacBoard 3 0).holeAt (p : Int)).has_peg = true ∧
        ((1 : Int), (0 : Int)) ∈ ((vacBoard 3 0).holeAt (p : Int)).moves ∧
        ((vacBoard 3 0).holeAt 1).has_peg = true ∧
        ((vacBoard 3 0).holeAt 0).has_peg = false) :=
  ⟨(valid_moves_characterization (vacBoard 3 0) (by decide)).1,
   (valid_moves_characterization (vacBoard 3 0) (by decide)).2 3 1 0⟩

/-- C4: each hole's candidate list is exactly the one described by the
spec's three independent geometric tests, so its length is even and in
`{0, 2, 4, 6}`. -/
theorem hole_candidates :
    ∀ n pos row offset : Nat,
      (Hole.init n pos row offset).moves = specCandidates n pos row offset ∧
      ((Hole.init n pos row offset).moves.length = 0 ∨
       (Hole.init n pos row offset).moves.length = 2 ∨
       (Hole.init n pos row offset).moves.length = 4 ∨
       (Hole.init n pos row offset).moves.length = 6) ∧
      (Hole.init n pos row offset).moves.length % 2 = 0 := by
  intro n pos row offset
  refine ⟨rfl, ?_⟩
  unfold Hole.init
  dsimp only
  split_ifs <;> simp

/-- C5: applying a move `(origin, mid, dest)` on a board where `origin`
and `mid` hold pegs and `dest` is empty clears `origin` and `mid`, fills
`dest`, appends `(origin, dest)` to the route (so its length grows by
one), and changes no other hole. -/
theorem applyMove_effect :
    ∀ (b : Board) (o m1 d : Int),
      0 ≤ o → o.toNat < b.holes.length →
      0 ≤ m1 → m1.toNat < b.holes.length →
      0 ≤ d → d.toNat < b.holes.length →
      (b.holeAt o).has_peg = true →
      (b.holeAt m1).has_peg = true →
      (b.holeAt d).has_peg = false →
      ((applyMove b (o, m1, d)).holeAt o).has_peg = false ∧
      ((applyMove b (o, m1, d)).holeAt m1).has_peg = false ∧
      ((applyMove b (o, m1, d)).holeAt d).has_peg = true ∧
      (applyMove b (o, m1, d)).route = b.route ++ [(o, d)] ∧
      (applyMove b (o, m1, d)).route.length = b.route.length + 1 ∧
      (∀ j : Int, 0 ≤ j → j.toNat < b.holes.length →
        j ≠ o → j ≠ m1 → j ≠ d → (applyMove b (o, m1, d)).holeAt j = b.holeAt j) := by
  intro b o m1 d ho0 ho1 hm0 hm1 hd0 hd1 hpo hpm hpd
  have hdo : d.toNat ≠ o.toNat := by
    intro he
    have hx : b.holeAt d = b.holeAt o := by unfold Board.holeAt; rw [he]
    rw [hx, hpo] at hpd
    simp at hpd
  have hdm : d.toNat ≠ m1.toNat := by
    intro he
    have hx : b.holeAt d = b.holeAt m1 := by unfold Board.holeAt; rw [he]
    rw [hx, hpm] at hpd
    simp at hpd
  have len1 : (setPegAt b.holes o false).length = b.holes.length := length_setPegAt ..
  have len2 : (setPegAt (setPegAt b.holes o false) m1 false).length = b.holes.length := by
    rw [length_setPegAt, len1]
  have midfalse : ∀ (hs : List Hole) (i : Int), i.toNat < hs.length →
      (((setPegAt hs i false)[i.toNat]?).getD defaultHole).has_peg = false := by
    intro hs i hlen
    rw [getElem?_setPegAt_self hs i false hlen, List.getElem?_eq_getElem hlen]
    rfl
  refine ⟨?_, ?_, ?_, rfl, applyMove_route_length .., ?_⟩
  · show (((setPegAt (setPegAt (setPegAt b.holes o false) m1 false) d true)[o.toNat]?).getD
      defaultHole).has_peg = false
    rw [getElem?_setPegAt_ne _ _ _ (Ne.symm hdo)]
    by_cases hmo : o.toNat = m1.toNat
    · rw [hmo]
      exact midfalse (setPegAt b.holes o false) m1 (by omega)
    · rw [getElem?_setPegAt_ne _ _ _ hmo]
      exact midfalse b.holes o ho1
  · show (((setPegAt (setPegAt (setPegAt b.holes o false) m1 false) d true)[m1.toNat]?).getD
      defaultHole).has_peg = false
    rw [getElem?_setPegAt_ne _ _ _ (Ne.symm hdm)]
    exact midfalse (setPegAt b.holes o false) m1 (by omega)
  · show (((setPegAt (setPegAt (setPegAt b.holes o false) m1 false) d true)[d.toNat]?).getD
      defaultHole).has_peg = true
    rw [getElem?_setPegAt_self _ d true (by omega),
      getElem?_setPegAt_ne _ _ _ hdm, getElem?_setPegAt_ne _ _ _ hdo,
      List.getElem?_eq_getElem hd1]
    rfl
  · intro j hj0 hj1 hjo hjm hjd
    have hjoN : j.toNat ≠ o.toNat := by omega
    have hjmN : j.toNat ≠ m1.toNat := by omega
    have hjdN : j.toNat ≠ d.toNat := by omega
    show (((setPegAt (setPegAt (setPegAt b.holes o false) m1 false) d true)[j.toNat]?).getD
        defaultHole) = ((b.holes[j.toNat]?).getD defaultHole)
    rw [getElem?_setPegAt_ne _ _ _ hjdN, getElem?_setPegAt_ne _ _ _ hjmN,
      getElem?_setPegAt_ne _ _ _ hjoN]

theorem applyMove_effect_witness :
    ((applyMove (vacBoard 5 0) (3, 1, 0)).holeAt 3).has_peg = false ∧
    ((applyMove (vacBoard 5 0) (3, 1, 0)).holeAt 1).has_peg = false ∧
    ((applyMove (vacBoard 5 0) (3, 1, 0)).holeAt 0).has_peg = true ∧
    (applyMove (vacBoard 5 0) (3, 1, 0)).route = (vacBoard 5 0).route ++ [(3, 0)] ∧
    (applyMove (vacBoard 5 0) (3, 1, 0)).route.length = (vacBoard 5 0).route.length + 1 ∧
    (applyMove (vacBoard 5 0) (3, 1, 0)).holeAt 7 = (vacBoard 5 0).holeAt 7 := by
  obtain ⟨h1, h2, h3, h4, h5, h6⟩ :=
    applyMove_effect (vacBoard 5 0) 3 1 0 (by decide) (by decide) (by decide) (by decide)
      (by decide) (by decide) (by decide) (by decide) (by decide)
  exact ⟨h1, h2, h3, h4, h5, h6 7 (by decide) (by decide) (by decide) (by decide) (by decide)⟩

/-- C6: on every well-formed board the search is total: its result is the
same for every sufficient fuel (the recursion can never run forever,
because each applied move removes one peg), and the route strictly grows
by one along every recursive call. -/
theorem find_solutions_total :
    ∀ b : Board, WF b →
      (∀ f g : Nat, pegCount b ≤ f → pegCount b ≤ g →
        find_solutions f b = find_solutions g b) ∧
      (∀ m ∈ b.valid_moves, (applyMove b m).route.length = b.route.length + 1) :=
  fun b hwf =>
    ⟨fun f g hf hg => find_solutions_stable_aux (pegCount b) b hwf le_rfl f g hf hg,
     fun m _ => applyMove_route_length b m⟩

theorem find_solutions_total_witness :
    find_solutions 5 (vacBoard 3 0) = find_solutions 9 (vacBoard 3 0) ∧
    (applyMove (vacBoard 3 0) (3, 1, 0)).route.length = (vacBoard 3 0).route.length + 1 :=
  ⟨(find_solutions_total (vacBoard 3 0) (by decide)).1 5 9 (by decide) (by decide),
   (find_solutions_total (vacBoard 3 0) (by decide)).2 (3, 1, 0) (by decide)⟩

/-- C7: the constructor's row-major enumeration stores the hole built
from `(row, offset)` at index `row*(row+1)/2 + offset`, and this mapping
is a bijection between valid `(row, offset)` pairs and `[0, numHoles)`. -/
theorem position_bijection :
    ∀ n : Nat,
      (Board.init n).holes.length = tri n ∧
      (∀ r o : Nat, o ≤ r → r < n → tri r + o < tri n ∧
        (Board.init n).holes[tri r + o]? = some (Hole.init n (tri r + o) r o)) ∧
      (∀ r o r' o' : Nat, o ≤ r → r < n → o' ≤ r' → r' < n →
        tri r + o = tri r' + o' → r = r' ∧ o = o') ∧
      (∀ i : Nat, i < tri n → ∃ r o : Nat, o ≤ r ∧ r < n ∧ tri r + o = i) := by
  intro n
  refine ⟨init_holes_length n, ?_, ?_, ?_⟩
  · intro r o ho hr
    exact ⟨tri_lt ho hr, init_getElem?_eq ho hr⟩
  · intro r o r' o' ho hr ho' hr' he
    exact tri_inj ho ho' he
  · intro i hi
    exact tri_surj i hi

theorem position_bijection_witness :
    (tri 2 + 1 < tri 4 ∧
      (Board.init 4).holes[tri 2 + 1]? = some (Hole.init 4 (tri 2 + 1) 2 1)) ∧
    (2 = 2 ∧ 1 = 1) ∧
    (∃ r o : Nat, o ≤ r ∧ r < 4 ∧ tri r + o = 5) :=
  ⟨(position_bijection 4).2.1 2 1 (by decide) (by decide),
   (position_bijection 4).2.2.1 2 1 2 1 (by decide) (by decide) (by decide) (by decide) rfl,
   (position_bijection 4).2.2.2 5 (by decide)⟩

/-- C8 counterexample: it is not true that board construction fails
exactly when some given initial-empty position lies outside
`[0, numHoles)`: the driver's `holes[p].has_peg = False` uses Python list
indexing, so `p = -1` (outside `[0, numHoles)`) is accepted and empties
the last hole instead of failing. -/
theorem createBoard_negative_index_cex :
    ¬ (∀ (n : Nat) (ps : List Int),
        createBoard n ps = none ↔ ∃ p ∈ ps, ¬(0 ≤ p ∧ p < ((tri n : Nat) : Int))) := by
  intro h
  have h2 := h 2 [(-1 : Int)]
  revert h2
  decide

/-- C8 (amended): board construction fails (Python `IndexError`, at
creation time, never during search) iff some given position lies outside
`[-numHoles, numHoles)`; a position in `[-numHoles, -1]` is accepted by
Python list indexing and empties the hole at `numHoles + p`. -/
theorem createBoard_fails_iff :
    ∀ (n : Nat) (ps : List Int),
      createBoard n ps = none ↔
        ∃ p ∈ ps, (p < -((tri n : Nat) : Int) ∨ ((tri n : Nat) : Int) ≤ p) := by
  intro n ps
  unfold createBoard
  rw [createBoard_go_none_iff ps (Board.init n), init_holes_length n]

def oneHoleBoard (v : Bool) : Board :=
  { Board.init 1 with holes := setPegAt (Board.init 1).holes 0 v }

/-- C9: the degenerate board of size 1 has `numHoles = 1` and
`winSize = -1`, and the search on it (with the single hole's peg present
or absent) terminates at once reporting no win and raising no error. -/
theorem degenerate_board_safe :
    ∀ (fuel : Nat) (v : Bool),
      (Board.init 1).numHoles = 1 ∧ (Board.init 1).winSize = -1 ∧
      find_solutions fuel (oneHoleBoard v) = [] ∧ searchSpec fuel (oneHoleBoard v) = [] := by
  intro fuel v
  have hnil : (oneHoleBoard v).valid_moves = [] := by cases v <;> rfl
  refine ⟨by decide, by decide, find_solutions_of_no_moves hnil fuel, ?_⟩
  cases fuel with
  | zero => rfl
  | succ f =>
    show runMovesAll (searchSpec f) _ (oneHoleBoard v).valid_moves = []
    rw [hnil]
    rfl

/-- C10: every candidate pair stored in any hole of any constructed board
lies in `[0, numHoles)`, and consequently every index the enumerator and
the search read or write on a well-formed board is nonnegative and in
range. -/
theorem candidate_indices_in_range :
    ∀ n : Nat,
      (∀ hl ∈ (Board.init n).holes, ∀ md ∈ hl.moves,
        0 ≤ md.1 ∧ md.1 < ((Board.init n).numHoles : Int) ∧
        0 ≤ md.2 ∧ md.2 < ((Board.init n).numHoles : Int)) ∧
      (∀ b : Board, WF b → ∀ mv ∈ b.valid_moves,
        0 ≤ mv.1 ∧ mv.1.toNat < b.holes.length ∧
        0 ≤ mv.2.1 ∧ mv.2.1.toNat < b.holes.length ∧
        0 ≤ mv.2.2 ∧ mv.2.2.toNat < b.holes.length) := by
  intro n
  constructor
  · intro hl hh md hmd
    obtain ⟨hlen, hpos, hmoves⟩ := WF_init n
    rw [List.mem_iff_getElem] at hh
    obtain ⟨i, hi, hget⟩ := hh
    have hb := hmoves ⟨i, hi⟩ md (by rw [List.get_eq_getElem, hget]; exact hmd)
    exact ⟨hb.1, hb.2.1, hb.2.2.1, hb.2.2.2.1⟩
  · intro b hwf mv hmv
    obtain ⟨a1, a2, a3, a4, a5, a6, _, _, _, _⟩ := mem_valid_moves_facts hwf hmv
    exact ⟨a1, a2, a3, a4, a5, a6⟩

/-!
### C1: a node visited by the search where a sibling winning move is skipped

`c1s0` is the program's own driver input (`Board(5)` with hole 0 empty).
The twelve jumps below are all legal and lead to the state `c1s12`, which
the recursion of `find_solutions` reaches (no ancestor's earlier sibling
is ever a win, since wins can only occur at route length `winSize = 13`).
At `c1s12` only pegs 1 and 3 remain and both enumerated moves win; the
source's `return` inside the loop (line 90) reports the first and never
processes the second.
-/

set_option maxRecDepth 8192

def c1s0 : Board := vacBoard 5 0
def c1s1 : Board := applyMove c1s0 (3, 1, 0)
def c1s2 : Board := applyMove c1s1 (5, 4, 3)
def c1s3 : Board := applyMove c1s2 (0, 2, 5)
def c1s4 : Board := applyMove c1s3 (6, 3, 1)
def c1s5 : Board := applyMove c1s4 (9, 5, 2)
def c1s6 : Board := applyMove c1s5 (11, 7, 4)
def c1s7 : Board := applyMove c1s6 (13, 12, 11)
def c1s8 : Board := applyMove c1s7 (10, 11, 12)
def c1s9 : Board := applyMove c1s8 (12, 8, 5)
def c1s10 : Board := applyMove c1s9 (2, 5, 9)
def c1s11 : Board := applyMove c1s10 (14, 9, 5)
def c1s12 : Board := applyMove c1s11 (5, 4, 3)

theorem c1_visited : Visited c1s0 c1s12 := by
  have h1 : Visited c1s0 c1s1 :=
    Visited.step [] [(5, 2, 0)] (3, 1, 0) Visited.refl (by decide) (by decide) (by decide)
  have h2 : Visited c1s0 c1s2 :=
    Visited.step [] [(8, 4, 1), (10, 6, 3), (12, 7, 3)] (5, 4, 3) h1
      (by decide) (by decide) (by decide)
  have h3 : Visited c1s0 c1s3 :=
    Visited.step [] [(6, 3, 1), (11, 7, 4), (12, 8, 5), (13, 8, 4), (14, 9, 5)] (0, 2, 5) h2
      (by decide) (by decide) (by decide)
  have h4 : Visited c1s0 c1s4 :=
    Visited.step [] [(9, 5, 2), (11, 7, 4), (13, 8, 4)] (6, 3, 1) h3
      (by decide) (by decide) (by decide)
  have h5 : Visited c1s0 c1s5 :=
    Visited.step [(8, 7, 6)] [(11, 7, 4), (12, 7, 3), (13, 8, 4)] (9, 5, 2) h4
      (by decide) (by decide) (by decide)
  have h6 : Visited c1s0 c1s6 :=
    Visited.step [(7, 8, 9), (8, 7, 6)] [(12, 8, 5), (12, 7, 3), (13, 8, 4)] (11, 7, 4) h5
      (by decide) (by decide) (by decide)
  have h7 : Visited c1s0 c1s7 :=
    Visited.step [(2, 4, 7), (12, 8, 5)] [] (13, 12, 11) h6
      (by decide) (by decide) (by decide)
  have h8 : Visited c1s0 c1s8 :=
    Visited.step [(2, 4, 7), (4, 8, 13)] [] (10, 11, 12) h7
      (by decide) (by decide) (by decide)
  have h9 : Visited c1s0 c1s9 :=
    Visited.step [(2, 4, 7), (4, 8, 13)] [] (12, 8, 5) h8
      (by decide) (by decide) (by decide)
  have h10 : Visited c1s0 c1s10 :=
    Visited.step [(1, 4, 8), (2, 4, 7)] [(5, 4, 3), (5, 2, 0)] (2, 5, 9) h9
      (by decide) (by decide) (by decide)
  have h11 : Visited c1s0 c1s11 :=
    Visited.step [(1, 4, 8)] [] (14, 9, 5) h10
      (by decide) (by decide) (by decide)
  exact Visited.step [(1, 4, 8)] [] (5, 4, 3) h11
    (by decide) (by decide) (by decide)

/-- C1: the claim fails on the code.  `c1s12` is a state visited by the
search started on the driver's own input (`Board(5)` with hole 0 empty);
its move list holds two moves and both win, but the loop of
`find_solutions` reports only the first and returns, never processing the
remaining sibling — unlike the spec's loop, which reports both.  So the
search does not report every winning sequence reachable from the initial
board. -/
theorem find_solutions_skips_sibling_win :
    Visited (vacBoard 5 0) c1s12 ∧
    c1s12.valid_moves = [(1, 3, 6), (3, 1, 0)] ∧
    isWin (applyMove c1s12 (1, 3, 6)) ∧
    isWin (applyMove c1s12 (3, 1, 0)) ∧
    find_solutions 1 c1s12 = [(applyMove c1s12 (1, 3, 6)).route] ∧
    searchSpec 1 c1s12 =
      [(applyMove c1s12 (1, 3, 6)).route, (applyMove c1s12 (3, 1, 0)).route] ∧
    (∀ f, runMoves (find_solutions f) c1s12 c1s12.valid_moves
        = [(applyMove c1s12 (1, 3, 6)).route]) ∧
    (∀ f, runMovesAll (searchSpec f) c1s12 c1s12.valid_moves
        = [(applyMove c1s12 (1, 3, 6)).route, (applyMove c1s12 (3, 1, 0)).route]) := by
  have hv : c1s12.valid_moves = [(1, 3, 6), (3, 1, 0)] := by decide
  refine ⟨c1_visited, hv, by decide, by decide, by decide, by decide, ?_, ?_⟩
  · intro f
    rw [hv]
    simp only [runMoves]
    rw [if_pos (by decide)]
  · intro f
    rw [hv]
    simp only [runMovesAll]
    rw [if_pos (by decide), if_pos (by decide)]
    rfl

theorem candidate_indices_in_range_witness :
    (0 ≤ (1 : Int) ∧ (1 : Int) < ((Board.init 4).numHoles : Int) ∧
     0 ≤ (3 : Int) ∧ (3 : Int) < ((Board.init 4).numHoles : Int)) ∧
    (0 ≤ (6 : Int) ∧ (6 : Int).toNat < (vacBoard 4 1).holes.length ∧
     0 ≤ (3 : Int) ∧ (3 : Int).toNat < (vacBoard 4 1).holes.length ∧
     0 ≤ (1 : Int) ∧ (1 : Int).toNat < (vacBoard 4 1).holes.length) :=
  ⟨(candidate_indices_in_range 4).1 (Hole.init 4 0 0 0) (by decide) (1, 3) (by decide),
   (candidate_indices_in_range 4).2 (vacBoard 4 1) (by decide) (6, 3, 1) (by decide)⟩

end PegSolitaire
